import Mathlib

/-!
Shallow embedding of the json-to-csv converter (src/main.py) and proofs
about its specified behaviour.

Conventions of the embedding:
* Parsed JSON values are the inductive `Json`; Python dicts preserve
  insertion order, so objects are ordered association lists.
* JSON numbers are modelled as integers (`Int`); no claim concerns
  non-integer or floating-point behaviour.
* Python dict assignment and `dict(items)` are modelled by `dictUpd` /
  `pyDict`, which update an existing key in place and append fresh keys.
* Python sets only ever reach the output through `sorted(...)`, which is
  modelled by deduplicating and insertion-sorting with the lexicographic
  string order (`≤` on `String` compares character code points, exactly
  like Python's `str` comparison).
* Numeric formatting (`f"[{i}]"`) is modelled by `natStr`, a decimal
  formatter equal to Python's `str` on naturals.
-/

/-- JSON values as parsed by `json.load`: `null`, booleans, numbers,
strings, arrays, and insertion-ordered objects. -/
inductive Json where
  | null
  | bool (b : Bool)
  | num (n : Int)
  | str (s : String)
  | arr (elems : List Json)
  | obj (fields : List (String × Json))

/-- `isinstance(x, dict)`. -/
def Json.isObj : Json → Bool
  | .obj _ => true
  | _ => false

/-- `isinstance(x, list)`. -/
def Json.isArr : Json → Bool
  | .arr _ => true
  | _ => false

/-- `isinstance(x, (dict, list))`. -/
def Json.isContainer : Json → Bool
  | .obj _ => true
  | .arr _ => true
  | _ => false

/-- Association-list lookup with string keys: Python `d[k]` / `d.get(k)`. -/
def alookup {α : Type} : List (String × α) → String → Option α
  | [], _ => none
  | (k, v) :: rest, key => if k = key then some v else alookup rest key

/-- Python dict assignment `d[key] = val` on an insertion-ordered dict:
an existing key keeps its position and gets the new value, a fresh key is
appended at the end. -/
def dictUpd {α : Type} : List (String × α) → String → α → List (String × α)
  | [], key, val => [(key, val)]
  | (k, v) :: rest, key, val =>
    if k = key then (k, val) :: rest else (k, v) :: dictUpd rest key val

/-- Python `dict(items)`: left fold of dict assignment over the pairs. -/
def pyDict {α : Type} (items : List (String × α)) : List (String × α) :=
  items.foldl (fun acc p => dictUpd acc p.1 p.2) []

/-- Python `list(d.keys())` of `dict(items)`. -/
def pyKeys {α : Type} (items : List (String × α)) : List String :=
  (pyDict items).map Prod.fst

/-- Fuelled decimal digit accumulator (the fuel only bounds recursion
depth; `natStr` supplies enough for any input). -/
def natDigitsAux : Nat → Nat → List Char → List Char
  | 0, _, acc => acc
  | fuel + 1, n, acc =>
    let d := Nat.digitChar (n % 10)
    if n < 10 then d :: acc else natDigitsAux fuel (n / 10) (d :: acc)

/-- Python `str(n)` for a natural number: decimal digits, no sign, no
leading zeros (and `"0"` for zero). -/
def natStr (n : Nat) : String := String.mk (natDigitsAux (n + 1) n [])

/-- Python `str(n)` for an integer. -/
def intStr (n : Int) : String :=
  if n < 0 then ("-") ++ natStr n.natAbs else natStr n.toNat

/-- `flatten_nested_data` (src/main.py:149-180): flattens nested objects
and arrays into an association list of path/scalar pairs; object keys are
joined with `sep`, array indices are encoded as `[i]`.  The Python
function builds `items` in traversal order and returns `dict(items)`;
this definition is the `items` list, and callers apply `pyDict` where the
source relies on the dict collapse. -/
def flatten_nested_data (v : Json) (parent_key : String) (sep : String) :
    List (String × Json) :=
  match v with
  | .obj fields => flatFields fields parent_key sep
  | .arr elems => flatElems elems 0 parent_key sep
  | x => [(parent_key, x)]
where
  /-- The `isinstance(obj, dict)` branch: recurse on every value with the
  extended key `parent.key` (or bare `key` when the parent is empty). -/
  flatFields : List (String × Json) → String → String → List (String × Json)
    | [], _, _ => []
    | (k, value) :: rest, p, sep =>
      let new_key := if p = ("") then k else p ++ sep ++ k
      flatten_nested_data value new_key sep ++ flatFields rest p sep
  /-- The `isinstance(obj, list)` branch: index `i` extends the key as
  `parent[i]`; containers recurse, scalars are emitted directly. -/
  flatElems : List Json → Nat → String → String → List (String × Json)
    | [], _, _, _ => []
    | value :: rest, i, p, sep =>
      let new_key := p ++ ("[") ++ natStr i ++ ("]")
      (match value with
        | .obj fs => flatten_nested_data (.obj fs) new_key sep
        | .arr es => flatten_nested_data (.arr es) new_key sep
        | x => [(new_key, x)]) ++ flatElems rest (i + 1) p sep

/-- Top-level keys of an object element, `none` for non-objects (the
`isinstance(item, dict)` guard of the key-collection loops). -/
def objKeys : Json → Option (List String)
  | .obj fs => some (fs.map Prod.fst)
  | _ => none

/-- Flattened keys of an object element (`flatten_nested_data(item).keys()`),
`none` for non-objects. -/
def flatObjKeys : Json → Option (List String)
  | .obj fs => some (pyKeys (flatten_nested_data (.obj fs) ("") (".")))
  | _ => none

/-- Python `sorted` on a set of strings: the increasing enumeration of
the distinct elements, in lexicographic (code-point) order. -/
def pySortedSet (l : List String) : List String :=
  List.insertionSort (fun a b => a ≤ b) l.dedup

/-- `extract_all_keys` (src/main.py:220-252): first record's keys in
original order, then every key appearing only in later records, sorted. -/
def extract_all_keys (json_data : List Json) : List String :=
  if json_data.isEmpty then []
  else
    let first_item_keys : List String :=
      match json_data.head? with
      | some (.obj fs) => fs.map Prod.fst
      | _ => []
    let all_keys : List String := (json_data.filterMap objKeys).flatten
    first_item_keys ++
      pySortedSet (all_keys.filter (fun k => !first_item_keys.contains k))

/-- `extract_all_keys_advanced` (src/main.py:183-217): like
`extract_all_keys` but on the flattened keys of every record. -/
def extract_all_keys_advanced (json_data : List Json) : List String :=
  if json_data.isEmpty then []
  else
    let first_item_keys : List String :=
      match json_data.head? with
      | some (.obj fs) => pyKeys (flatten_nested_data (.obj fs) ("") ("."))
      | _ => []
    let all_keys : List String := (json_data.filterMap flatObjKeys).flatten
    first_item_keys ++
      pySortedSet (all_keys.filter (fun k => !first_item_keys.contains k))

/-- `has_nested_arrays` (src/main.py:132-144): scans the values of an
object; a direct array value answers true, a nested object answers true
when one of its direct values is an array or, recursively, when it
contains one deeper. -/
def has_nested_arrays : List (String × Json) → Bool
  | [] => false
  | (_, v) :: rest => hasArrValue v || has_nested_arrays rest
where
  /-- One value of the scanned object: a dict answers true when a direct
  inner value is an array or the recursive scan finds one; a list answers
  true; scalars answer false. -/
  hasArrValue : Json → Bool
    | .obj fs => fs.any (fun p => p.2.isArr) || has_nested_arrays fs
    | .arr _ => true
    | _ => false

/-- `detect_transpose_structure` (src/main.py:113-146): true only for a
one-element dataset whose sole element is an object passing
`has_nested_arrays`. -/
def detect_transpose_structure (data : List Json) : Bool :=
  match data with
  | [.obj fs] => has_nested_arrays fs
  | _ => false

/-- Mutable state of `extract_arrays` (src/main.py:51-72): the
`single_values` dict and the two-level `array_groups` dict. -/
structure ExtractSt where
  singles : List (String × Json)
  array_groups : List (String × List (String × List Json))

/-- `single_values[full_key] = value`. -/
def addSingle (st : ExtractSt) (key : String) (v : Json) : ExtractSt :=
  { st with singles := dictUpd st.singles key v }

/-- `array_groups.setdefault(group_name, {})[key] = value` (spelled out
with the `not in` check as in the source). -/
def addArray (st : ExtractSt) (group key : String) (vals : List Json) :
    ExtractSt :=
  { st with array_groups :=
      match alookup st.array_groups group with
      | some inner => dictUpd st.array_groups group (dictUpd inner key vals)
      | none => st.array_groups ++ [(group, [(key, vals)])] }

/-- `extract_arrays` (src/main.py:54-72): walks an object's fields in
order; nested objects recurse with the dotted prefix, arrays go to the
group named by the enclosing prefix (`"root"` at top level), scalars go
to `single_values` under their dotted path. -/
def extract_arrays : List (String × Json) → String → ExtractSt → ExtractSt
  | [], _, st => st
  | (key, value) :: rest, pre, st =>
    extract_arrays rest pre (extractStep key value pre st)
where
  /-- Processing of one key/value pair of the scanned object. -/
  extractStep (key : String) : Json → String → ExtractSt → ExtractSt
    | .obj fs, pre, st =>
      extract_arrays fs (if pre = ("") then key else pre ++ (".") ++ key) st
    | .arr es, pre, st =>
      addArray st (if pre = ("") then ("root") else pre) key es
    | x, pre, st =>
      addSingle st (if pre = ("") then key else pre ++ (".") ++ key) x

/-- `max_length` computation (src/main.py:77-80): maximum length over
every array in every group. -/
def groupsMaxLen (groups : List (String × List (String × List Json))) : Nat :=
  groups.foldl (fun m g => g.2.foldl (fun m2 a => max m2 a.2.length) m) 0

/-- Column name of an array field (src/main.py:98-101): the bare array
key for the `root` group, `group.key` otherwise. -/
def arrayFieldName (group key : String) : String :=
  if group = ("root") then key else group ++ (".") ++ key

/-- One output row of the transposition (src/main.py:88-106): singles
first (value at row 0, empty string below), then every array's element
at index `i`, empty string past the array's end. -/
def buildRow (st : ExtractSt) (i : Nat) : List (String × Json) :=
  let withSingles := st.singles.foldl
    (fun row p => dictUpd row p.1 (if i = 0 then p.2 else .str (""))) []
  st.array_groups.foldl
    (fun row g => g.2.foldl
      (fun row2 a =>
        dictUpd row2 (arrayFieldName g.1 a.1) (a.2.getD i (.str ("")))) row)
    withSingles

/-- Rows contributed by one element of the dataset inside the transpose
loop (src/main.py:49-108); a non-dict element raises `AttributeError`
when `extract_arrays` calls `.items()` on it. -/
def transposeItem : Json → Except String (List Json)
  | .obj fields =>
    let st := extract_arrays fields ("") ⟨[], []⟩
    let max_length := groupsMaxLen st.array_groups
    if max_length = 0 then .ok [.obj fields]
    else .ok ((List.range max_length).map (fun i => .obj (buildRow st i)))
  | _ => .error ("AttributeError")

/-- `transpose_nested_arrays` (src/main.py:31-110): returns the data
unchanged when it is empty or its first element is not a dict; otherwise
expands every element into its transposed rows. -/
def transpose_nested_arrays (data : List Json) : Except String (List Json) :=
  match data with
  | [] => .ok []
  | first :: _ =>
    if first.isObj then (data.mapM transposeItem).map List.flatten
    else .ok data

/-- Hex digit character (0-15), as used by string escapes. -/
def hexDigit (n : Nat) : Char := Nat.digitChar n

/-- JSON string escaping as performed by `json.dumps` (quote, backslash
and control characters escaped; `ensure_ascii=False` leaves the rest). -/
def jsonEscapeChar (c : Char) : List Char :=
  if c = '"' then ['\\', '"']
  else if c = '\\' then ['\\', '\\']
  else if c = '\n' then ['\\', 'n']
  else if c = '\t' then ['\\', 't']
  else if c = '\r' then ['\\', 'r']
  else if c = '\x08' then ['\\', 'b']
  else if c = '\x0c' then ['\\', 'f']
  else if c.toNat < 32 then
    ['\\', 'u', '0', '0', hexDigit (c.toNat / 16), hexDigit (c.toNat % 16)]
  else [c]

/-- A JSON string literal: `"..."` with escapes. -/
def jsonQuote (s : String) : String :=
  String.mk ('"' :: (s.data.map jsonEscapeChar).flatten ++ ['"'])

/-- `json.dumps(value, ensure_ascii=False)` with the default separators
`", "` and `": "`. -/
def json_dumps : Json → String
  | .null => ("null")
  | .bool true => ("true")
  | .bool false => ("false")
  | .num n => intStr n
  | .str s => jsonQuote s
  | .arr es => ("[") ++ String.intercalate (", ") (dumpsElems es) ++ ("]")
  | .obj fs => ("\x7b") ++ String.intercalate (", ") (dumpsFields fs) ++ ("\x7d")
where
  /-- Serialized elements of an array, in order. -/
  dumpsElems : List Json → List String
    | [] => []
    | v :: rest => json_dumps v :: dumpsElems rest
  /-- Serialized `"key": value` entries of an object, in order. -/
  dumpsFields : List (String × Json) → List String
    | [] => []
    | (k, v) :: rest => (jsonQuote k ++ (": ") ++ json_dumps v) :: dumpsFields rest

/-- Python `repr` escaping of one character inside a string literal
quoted by `q`. -/
def pyEscapeChar (q : Char) (c : Char) : List Char :=
  if c = '\\' then ['\\', '\\']
  else if c = q then ['\\', q]
  else if c = '\n' then ['\\', 'n']
  else if c = '\t' then ['\\', 't']
  else if c = '\r' then ['\\', 'r']
  else if c.toNat < 32 then ['\\', 'x', hexDigit (c.toNat / 16), hexDigit (c.toNat % 16)]
  else [c]

/-- Python `repr` of a `str`: single-quoted, switching to double quotes
when the text holds a single quote but no double quote. -/
def pyStrQuote (s : String) : String :=
  let q := if s.contains '\'' && !(s.contains '"') then '"' else '\''
  String.mk (q :: (s.data.map (pyEscapeChar q)).flatten ++ [q])

/-- Python `repr` of a parsed-JSON value, used by `str` on containers:
`None`/`True`/`False`, decimal numbers, quoted strings, `[...]` lists and
`{...}` dicts with `", "` separators. -/
def pyRepr : Json → String
  | .null => ("None")
  | .bool true => ("True")
  | .bool false => ("False")
  | .num n => intStr n
  | .str s => pyStrQuote s
  | .arr es => ("[") ++ String.intercalate (", ") (reprElems es) ++ ("]")
  | .obj fs => ("\x7b") ++ String.intercalate (", ") (reprFields fs) ++ ("\x7d")
where
  /-- `repr` of the elements of a list, in order. -/
  reprElems : List Json → List String
    | [] => []
    | v :: rest => pyRepr v :: reprElems rest
  /-- `repr` of the `key: value` entries of a dict, in order. -/
  reprFields : List (String × Json) → List String
    | [] => []
    | (k, v) :: rest => (pyStrQuote k ++ (": ") ++ pyRepr v) :: reprFields rest

/-- Python `str` of a parsed-JSON value: `str(None) = "None"`, booleans
capitalized, numbers in decimal, a string is itself, containers print as
their `repr`. -/
def pyStr : Json → String
  | .null => ("None")
  | .bool true => ("True")
  | .bool false => ("False")
  | .num n => intStr n
  | .str s => s
  | .arr es => pyRepr (.arr es)
  | .obj fs => pyRepr (.obj fs)

/-- `flatten_value` (src/main.py:255-272): `None` becomes the empty
string, dicts and lists serialize as compact JSON, anything else is its
`str` form. -/
def flatten_value : Json → String
  | .null => ("")
  | .obj fs => json_dumps (.obj fs)
  | .arr es => json_dumps (.arr es)
  | x => pyStr x

/-- Split a character list at the first `'.'`: the part before it and
the part after it (Python `s.split(".", 1)` when a dot is present). -/
def splitFirstDot : List Char → List Char × List Char
  | [] => ([], [])
  | c :: rest =>
    if c = '.' then ([], rest)
    else
      let p := splitFirstDot rest
      (c :: p.1, p.2)

/-- The top/sub header pair of one header (src/main.py:409-416): split
at the first dot when one occurs, else the full header on top and an
empty string below. -/
def splitHeaderPair (h : String) : String × String :=
  if h.data.contains '.' then
    (String.mk (splitFirstDot h.data).1, String.mk (splitFirstDot h.data).2)
  else (h, (""))

/-- `create_hierarchical_headers` (src/main.py:394-418): the list of top
headers and the list of sub headers. -/
def create_hierarchical_headers (headers : List String) :
    List String × List String :=
  (headers.map (fun h => (splitHeaderPair h).1),
   headers.map (fun h => (splitHeaderPair h).2))

/-- One cell of the plain flat write (src/main.py:367):
`flatten_value(item.get(key))`, where a missing key yields `None`. -/
def plainCell (fields : List (String × Json)) (key : String) : String :=
  flatten_value ((alookup fields key).getD .null)

/-- One cell of the flatten flat write (src/main.py:364):
`str(flattened_item.get(key, ""))`. -/
def flattenCell (fields : List (String × Json)) (key : String) : String :=
  pyStr ((alookup (pyDict (flatten_nested_data (.obj fields) ("") ("."))) key).getD
    (.str ("")))

/-- One cell of the hierarchical write (src/main.py:445-446):
`str(item.get(header, ""))`. -/
def hierCell (row : List (String × Json)) (h : String) : String :=
  pyStr ((alookup row h).getD (.str ("")))

/-- Data rows of the flat write loop (src/main.py:359-370): one row per
dict element (cells per header, by mode), non-dict elements skipped. -/
def flat_write_rows (headers : List String) (flatten_arrays : Bool)
    (processed : List Json) : List (List String) :=
  processed.filterMap (fun item =>
    match item with
    | .obj fs => some (headers.map (fun k =>
        if flatten_arrays then flattenCell fs k else plainCell fs k))
    | _ => none)

/-- One data row of the hierarchical write; a non-dict element raises
`AttributeError` at `item.get`. -/
def hierRow (headers : List String) : Json → Except String (List String)
  | .obj fs => .ok (headers.map (fun h => hierCell fs h))
  | _ => .error ("AttributeError")

/-- `write_hierarchical_csv` (src/main.py:421-447): the top header row,
the sub header row, then one row per element. -/
def write_hierarchical_csv (headers : List String) (data : List Json) :
    Except String (List (List String)) :=
  (data.mapM (hierRow headers)).map (fun rows =>
    (create_hierarchical_headers headers).1 ::
      (create_hierarchical_headers headers).2 :: rows)

/-- Warnings the converter prints. -/
inductive ConvWarning where
  | emptyDataset
  | noKeys
  | skippedNonObject

/-- The per-element skip warnings of the flat write loop
(src/main.py:370). -/
def skipWarnings (processed : List Json) : List ConvWarning :=
  processed.filterMap (fun item =>
    if item.isObj then none else some .skippedNonObject)

/-- Fatal outcomes of the conversion pipeline after parsing. -/
inductive ConvError where
  | notAnArray
  | pyError (msg : String)

/-- Result of one conversion: the rows written to the output file
(`none` when the converter returns before opening it) and the warnings
printed. -/
structure ConvOutput where
  file : Option (List (List String))
  warnings : List ConvWarning

/-- `json_to_csv` (src/main.py:275-391) from the parsed input value on:
validates the top-level shape, handles the empty dataset, auto-detects
transposition when no flag is set, then extracts headers and writes in
the selected mode. -/
def json_to_csv (data : Json) (flatten_arrays transpose : Bool) :
    Except ConvError ConvOutput :=
  match data with
  | .arr elems =>
    if elems.isEmpty then .ok ⟨some [], [.emptyDataset]⟩
    else
      let auto :=
        detect_transpose_structure elems && !flatten_arrays && !transpose
      if transpose || auto then
        match transpose_nested_arrays elems with
        | .error e => .error (.pyError e)
        | .ok processed =>
          let headers := extract_all_keys processed
          if headers.isEmpty then .ok ⟨none, [.noKeys]⟩
          else
            match write_hierarchical_csv headers processed with
            | .error e => .error (.pyError e)
            | .ok rows => .ok ⟨some rows, []⟩
      else
        let headers :=
          if flatten_arrays then extract_all_keys_advanced elems
          else extract_all_keys elems
        if headers.isEmpty then .ok ⟨none, [.noKeys]⟩
        else
          .ok ⟨some (headers :: flat_write_rows headers flatten_arrays elems),
            skipWarnings elems⟩
  | _ => .error .notAnArray

/-- Filesystem touches of one run, in order. -/
inductive FsEvent where
  | checkExists
  | readInput
  | writeOutput

/-- `main` (src/main.py:450-500) after argument parsing: the mutual
exclusion of the two mode flags is checked before `json_to_csv` runs, so
before any filesystem access; the input is `none` when the file is
missing, `some none` when it does not parse as JSON.  Returns the
filesystem events performed and the process exit code.  (Lean reserves
the name `main`, hence the `_run` suffix.) -/
def main_run (flatten_arrays transpose : Bool) (input : Option (Option Json)) :
    List FsEvent × Nat :=
  if flatten_arrays && transpose then ([], 1)
  else
    match input with
    | none => ([.checkExists], 1)
    | some none => ([.checkExists, .readInput], 1)
    | some (some j) =>
      match json_to_csv j flatten_arrays transpose with
      | .error _ => ([.checkExists, .readInput], 1)
      | .ok out =>
        ([.checkExists, .readInput] ++
          (if out.file.isSome then [.writeOutput] else []), 0)

/-- Specification-level predicate for C3: some value reachable from the
record through a chain of nested objects (of any depth) is an array. -/
def arrReachable : List (String × Json) → Bool
  | [] => false
  | (_, v) :: rest => arrValueReachable v || arrReachable rest
where
  /-- A single value contributes when it is an array or an object that
  reaches one. -/
  arrValueReachable : Json → Bool
    | .arr _ => true
    | .obj fs => arrReachable fs
    | _ => false

/-- A key that cannot disturb path encoding: nonempty, no dot, no
opening bracket. -/
def keyOk (k : String) : Bool :=
  !(k.data.contains '.') && !(k.data.contains '[') && !(k.data.isEmpty)

/-- Pairwise-distinct strings. -/
def distinctKeys : List String → Bool
  | [] => true
  | k :: rest => !(rest.contains k) && distinctKeys rest

/-- Well-formedness for C5: every object of the value has
pairwise-distinct keys (as any Python dict does) and every key is
nonempty and free of `.` and `[`. -/
def safeKeys : Json → Bool
  | .obj fs => distinctKeys (fs.map Prod.fst) && safeFields fs
  | .arr es => safeElems es
  | _ => true
where
  /-- Each field: its key is safe and its value recursively safe. -/
  safeFields : List (String × Json) → Bool
    | [] => true
    | (k, v) :: rest => keyOk k && safeKeys v && safeFields rest
  /-- Each array element recursively safe. -/
  safeElems : List Json → Bool
    | [] => true
    | v :: rest => safeKeys v && safeElems rest

/-- The array fields of an extraction state, flattened to
(column name, array) pairs in emission order. -/
def groupPairs (groups : List (String × List (String × List Json))) :
    List (String × List Json) :=
  (groups.map (fun g => g.2.map (fun a => (arrayFieldName g.1 a.1, a.2)))).flatten

/-- Every column name an extraction state's array groups give rise to,
in emission order. -/
def groupFieldNames (groups : List (String × List (String × List Json))) :
    List String :=
  (groupPairs groups).map Prod.fst

/-- Suffix shapes a flat key can have past its parent's path: empty, or
continuing with a dot (object step) or an opening bracket (array step).
Used to prove that distinct paths give distinct keys. -/
def extSuffix (s : List Char) : Prop :=
  s = [] ∨ s.head? = some '.' ∨ s.head? = some '['

/-- Characters a parent path contributes before a field key: nothing for
the empty parent, the parent's characters and a dot otherwise. -/
def dotPrefix (p : String) : List Char :=
  if p = ("") then [] else p.data ++ ['.']

/-- C10: `transpose_nested_arrays` returns its input entirely unchanged
whenever the list is empty or its first element is not an object, even
when later elements are objects containing array-valued fields. -/
theorem transpose_guard_identity :
    transpose_nested_arrays [] = .ok [] ∧
    ∀ (x : Json) (rest : List Json), x.isObj = false →
      transpose_nested_arrays (x :: rest) = .ok (x :: rest) := by
  refine ⟨rfl, fun x rest h => ?_⟩
  simp [transpose_nested_arrays, h]

/-- Witness for C10 at a concrete dataset whose first element is a
number and whose second element is an object holding an array. -/
theorem transpose_guard_identity_witness :
    transpose_nested_arrays
      [.num 1, .obj [(("a"), .arr [.num 1, .num 2])]] =
      .ok [.num 1, .obj [(("a"), .arr [.num 1, .num 2])]] :=
  transpose_guard_identity.2 (.num 1)
    [.obj [(("a"), .arr [.num 1, .num 2])]] rfl

/-- C9: with both mode flags set, `main_run` exits with code 1 before
performing any filesystem access, whatever the input file holds. -/
theorem exclusive_flags_exit_before_fs (input : Option (Option Json)) :
    main_run true true input = ([], 1) := rfl

/-- C8: an empty top-level array is not fatal in any legal flag
combination: the conversion writes an empty output file (no header row),
emits the empty-dataset warning, and the process exits with code zero
after the existence check, the read and the write. -/
theorem empty_dataset_not_fatal :
    (json_to_csv (.arr []) false false = .ok ⟨some [], [.emptyDataset]⟩ ∧
      main_run false false (some (some (.arr []))) =
        ([.checkExists, .readInput, .writeOutput], 0)) ∧
    (json_to_csv (.arr []) true false = .ok ⟨some [], [.emptyDataset]⟩ ∧
      main_run true false (some (some (.arr []))) =
        ([.checkExists, .readInput, .writeOutput], 0)) ∧
    (json_to_csv (.arr []) false true = .ok ⟨some [], [.emptyDataset]⟩ ∧
      main_run false true (some (some (.arr []))) =
        ([.checkExists, .readInput, .writeOutput], 0)) :=
  ⟨⟨rfl, rfl⟩, ⟨rfl, rfl⟩, rfl, rfl⟩

/-- Counterexample to C4 as stated: in the flatten flat write a present
null value renders as the text `None`, not as the empty string. -/
theorem null_render_counterexample :
    flattenCell [(("a"), .null)] ("a") = ("None") ∧ ("None") ≠ ("") :=
  ⟨rfl, by decide⟩

/-- C4 amended: a JSON null renders as the empty string only in the
plain flat write; the flatten flat write and the hierarchical write
render a present null as `None` (a key that is absent altogether still
yields the empty string there). -/
theorem null_rendering (fields row : List (String × Json)) (key h : String) :
    (alookup fields key = some .null → plainCell fields key = ("")) ∧
    (alookup (pyDict (flatten_nested_data (.obj fields) ("") ("."))) key =
        some .null → flattenCell fields key = ("None")) ∧
    (alookup row h = some .null → hierCell row h = ("None")) := by
  refine ⟨fun h1 => ?_, fun h2 => ?_, fun h3 => ?_⟩
  · simp [plainCell, h1, flatten_value]
  · simp [flattenCell, h2, pyStr]
  · simp [hierCell, h3, pyStr]

/-- Witness for C4 amended at concrete one-field records holding null. -/
theorem null_rendering_witness :
    plainCell [(("a"), .null)] ("a") = ("") ∧
    flattenCell [(("a"), .null)] ("a") = ("None") ∧
    hierCell [(("a"), .null)] ("a") = ("None") :=
  ⟨(null_rendering [(("a"), .null)] [(("a"), .null)] ("a") ("a")).1 rfl,
   (null_rendering [(("a"), .null)] [(("a"), .null)] ("a") ("a")).2.1 rfl,
   (null_rendering [(("a"), .null)] [(("a"), .null)] ("a") ("a")).2.2 rfl⟩

/-- Counterexample to C3 as stated: the detector answers true for a
single record whose only array sits three object levels deep, where the
claim asserts it returns false past one extra nesting level. -/
theorem detect_deep_array_counterexample :
    detect_transpose_structure
      [.obj [(("a"), .obj [(("b"), .obj [(("c"), .arr [.num 1])])])]] =
      true := rfl

/-- An array value is in particular reachable. -/
theorem isArr_le_reach (v : Json) :
    (v.isArr || arrReachable.arrValueReachable v) =
      arrReachable.arrValueReachable v := by
  cases v <;> rfl

/-- Absorption: a direct array among an object's values already makes
the reachability scan succeed. -/
theorem any_isArr_absorb (fs : List (String × Json)) :
    (fs.any (fun p => p.2.isArr) || arrReachable fs) = arrReachable fs := by
  induction fs with
  | nil => rfl
  | cons p rest ih =>
    obtain ⟨k, v⟩ := p
    have hle := isArr_le_reach v
    rw [List.any_cons,
      show arrReachable ((k, v) :: rest) =
        (arrReachable.arrValueReachable v || arrReachable rest) from rfl]
    cases hI : v.isArr <;> cases hA : arrReachable.arrValueReachable v <;>
      (simp_all; try exact ih)

mutual

/-- The detector's inner scan agrees with unbounded-depth reachability
on a single value. -/
theorem hasArrValue_eq_spec (v : Json) :
    has_nested_arrays.hasArrValue v = arrReachable.arrValueReachable v := by
  match v with
  | .obj fs =>
    rw [show has_nested_arrays.hasArrValue (.obj fs) =
        (fs.any (fun p => p.2.isArr) || has_nested_arrays fs) from rfl,
      has_nested_arrays_eq_spec fs,
      show arrReachable.arrValueReachable (.obj fs) = arrReachable fs from rfl,
      any_isArr_absorb fs]
  | .arr es => rfl
  | .null => rfl
  | .bool b => rfl
  | .num n => rfl
  | .str s => rfl

/-- The detector's scan over an object's fields agrees with
unbounded-depth reachability. -/
theorem has_nested_arrays_eq_spec (fs : List (String × Json)) :
    has_nested_arrays fs = arrReachable fs := by
  match fs with
  | [] => rfl
  | (k, v) :: rest =>
    rw [show has_nested_arrays ((k, v) :: rest) =
        (has_nested_arrays.hasArrValue v || has_nested_arrays rest) from rfl,
      hasArrValue_eq_spec v, has_nested_arrays_eq_spec rest]
    rfl

end

/-- C3 amended: the detector answers true exactly when the dataset has a
single record, that record is an object, and an array-valued field is
reachable through nested objects at ANY depth — the shallow one-level
limit of the claim does not hold. -/
theorem detect_transpose_characterization (data : List Json) :
    detect_transpose_structure data = true ↔
      ∃ fs, data = [Json.obj fs] ∧ arrReachable fs = true := by
  cases data with
  | nil => simp [detect_transpose_structure]
  | cons x rest =>
    cases rest with
    | cons y t => cases x <;> simp [detect_transpose_structure]
    | nil => cases x <;> simp [detect_transpose_structure, has_nested_arrays_eq_spec]

/-- When a dot occurs, the two parts of `splitFirstDot` rebuild the list
around its first dot. -/
theorem splitFirstDot_append (l : List Char) (h : l.contains '.' = true) :
    (splitFirstDot l).1 ++ '.' :: (splitFirstDot l).2 = l := by
  induction l with
  | nil => simp at h
  | cons c rest ih =>
    by_cases hc : c = '.'
    · subst hc; simp [splitFirstDot]
    · have hr : rest.contains '.' = true := by
        rw [List.contains_cons] at h
        rcases Bool.or_eq_true_iff.mp h with h1 | h1
        · exact absurd (beq_iff_eq.mp h1).symm hc
        · exact h1
      simp [splitFirstDot, hc, ih hr]

/-- Counterexample to C6 as stated: the record with the single key `a.`
flattens to a mapping containing the key `a.`; the splitter gives it an
empty sub header, and the claim's rule for an empty sub header (take the
top alone) does not rebuild the key. -/
theorem header_split_counterexample :
    (flatten_nested_data (.obj [(("a."), .num 1)]) ("") (".")).map Prod.fst =
      [("a.")] ∧
    (splitHeaderPair ("a.")).2 = ("") ∧
    (splitHeaderPair ("a.")).1 ≠ ("a.") :=
  ⟨rfl, rfl, by decide⟩

/-- C6 amended: splitting a key at the first dot rebuilds it by the rule
keyed on the PRESENCE of a dot: with a dot, top ++ `.` ++ sub is the key
(even when sub is empty); without one, the top alone is the key and the
sub header is empty.  The claim's original side condition (`sub`
emptiness) fails exactly for keys whose first dot is their last
character. -/
theorem header_split_reconstruction (h : String) :
    (h.data.contains '.' = true →
      (splitHeaderPair h).1 ++ (".") ++ (splitHeaderPair h).2 = h) ∧
    (h.data.contains '.' = false →
      (splitHeaderPair h).1 = h ∧ (splitHeaderPair h).2 = ("")) := by
  constructor
  · intro hc
    have hs := splitFirstDot_append h.data hc
    simp only [splitHeaderPair, hc, if_true]
    apply String.ext
    have hdata : ((String.mk (splitFirstDot h.data).1 ++ (".") ++
        String.mk (splitFirstDot h.data).2 : String)).data =
        ((splitFirstDot h.data).1 ++ ['.']) ++ (splitFirstDot h.data).2 := rfl
    rw [hdata, List.append_assoc, List.singleton_append]
    exact hs
  · intro hc
    simp only [splitHeaderPair, hc, Bool.false_eq_true, if_false]
    constructor <;> trivial

/-- Witness for C6 amended at a key with a dot and a key without one. -/
theorem header_split_reconstruction_witness :
    ((splitHeaderPair ("a.b")).1 ++ (".") ++ (splitHeaderPair ("a.b")).2 =
      ("a.b")) ∧
    ((splitHeaderPair ("xy")).1 = ("xy") ∧ (splitHeaderPair ("xy")).2 = ("")) :=
  ⟨(header_split_reconstruction ("a.b")).1 rfl,
   (header_split_reconstruction ("xy")).2 rfl⟩

/-- Rows of the flat write are exactly the object elements. -/
theorem flat_write_rows_length (headers : List String) (fl : Bool)
    (processed : List Json) :
    (flat_write_rows headers fl processed).length =
      processed.countP (fun j => j.isObj) := by
  induction processed with
  | nil => rfl
  | cons x rest ih =>
    cases x <;>
      simp [flat_write_rows, Json.isObj, List.countP_cons] at ih ⊢ <;>
      omega

/-- One skip warning per non-object element. -/
theorem skipWarnings_length (processed : List Json) :
    (skipWarnings processed).length =
      processed.countP (fun j => !j.isObj) := by
  induction processed with
  | nil => rfl
  | cons x rest ih =>
    cases x <;>
      simp [skipWarnings, Json.isObj, List.countP_cons] at ih ⊢ <;>
      omega

/-- Counterexample to C7 as stated: the valid non-empty dataset holding
the single object `{}` yields an empty header set, so the converter
returns with a warning before opening the output file — zero data rows
are written although the dataset has one object element. -/
theorem flat_row_count_counterexample :
    json_to_csv (.arr [.obj []]) false false = .ok ⟨none, [.noKeys]⟩ ∧
    List.countP (fun j => j.isObj) [Json.obj []] = 1 := ⟨rfl, rfl⟩

/-- C7 amended: whenever the flat path is taken (flatten mode, or plain
mode with the transpose auto-detection not firing) AND the extracted
header set is nonempty, the file consists of the header row followed by
exactly one data row per object element, and one skip warning is emitted
per non-object element. -/
theorem flat_row_count (elems : List Json) (flatten_arrays : Bool)
    (headers : List String)
    (hne : elems.isEmpty = false)
    (hmode : flatten_arrays = true ∨ detect_transpose_structure elems = false)
    (hheaders : headers = (if flatten_arrays then
      extract_all_keys_advanced elems else extract_all_keys elems))
    (hnz : headers.isEmpty = false) :
    json_to_csv (.arr elems) flatten_arrays false =
      .ok ⟨some (headers :: flat_write_rows headers flatten_arrays elems),
        skipWarnings elems⟩ ∧
    (flat_write_rows headers flatten_arrays elems).length =
      elems.countP (fun j => j.isObj) ∧
    (skipWarnings elems).length = elems.countP (fun j => !j.isObj) := by
  have hauto :
      (detect_transpose_structure elems && !flatten_arrays && !false) = false := by
    rcases hmode with h | h <;> simp [h]
  refine ⟨?_, flat_write_rows_length _ _ _, skipWarnings_length _⟩
  subst hheaders
  simp only [json_to_csv, hne, Bool.false_eq_true, if_false, hauto,
    Bool.or_false, hnz]

/-- Witness for C7 amended: two elements, one object and one number, in
plain mode. -/
theorem flat_row_count_witness :
    json_to_csv (.arr [.obj [(("a"), .num 1)], .num 5]) false false =
      .ok ⟨some ((["a"]) ::
          flat_write_rows (["a"]) false [.obj [(("a"), .num 1)], .num 5]),
        skipWarnings [.obj [(("a"), .num 1)], .num 5]⟩ ∧
    (flat_write_rows (["a"]) false [.obj [(("a"), .num 1)], .num 5]).length =
      List.countP (fun j => j.isObj) [Json.obj [(("a"), .num 1)], .num 5] ∧
    (skipWarnings [.obj [(("a"), .num 1)], .num 5]).length =
      List.countP (fun j => !j.isObj) [Json.obj [(("a"), .num 1)], .num 5] :=
  flat_row_count [.obj [(("a"), .num 1)], .num 5] false (["a"]) rfl
    (Or.inr rfl) rfl rfl

/-- Membership in the later-keys filter: a key collected from some
record that is not among the first record's keys. -/
theorem mem_filter_keys_iff (firstKeys : List String)
    (keysOf : Json → Option (List String)) (data : List Json) (k : String) :
    k ∈ ((data.filterMap keysOf).flatten).filter
        (fun x => !firstKeys.contains x) ↔
      ((∃ item ∈ data, ∃ ks, keysOf item = some ks ∧ k ∈ ks) ∧
        k ∉ firstKeys) := by
  rw [List.mem_filter]
  constructor
  · rintro ⟨hin, hnc⟩
    obtain ⟨ks, hks, hk⟩ := List.mem_flatten.mp hin
    obtain ⟨item, hitem, hfk⟩ := List.mem_filterMap.mp hks
    refine ⟨⟨item, hitem, ks, hfk, hk⟩, fun hmem => ?_⟩
    rw [show firstKeys.contains k = List.elem k firstKeys from rfl,
      List.elem_eq_true_of_mem hmem] at hnc
    simp at hnc
  · rintro ⟨⟨item, hitem, ks, hfk, hk⟩, hnot⟩
    refine ⟨List.mem_flatten.mpr
      ⟨ks, List.mem_filterMap.mpr ⟨item, hitem, hfk⟩, hk⟩, ?_⟩
    rw [show firstKeys.contains k = List.elem k firstKeys from rfl,
      List.elem_eq_mem]
    simp [hnot]

/-- Sorting a key set keeps exactly its members. -/
theorem pySortedSet_mem (l : List String) (k : String) :
    k ∈ pySortedSet l ↔ k ∈ l := by
  unfold pySortedSet
  rw [(List.perm_insertionSort _ _).mem_iff, List.mem_dedup]

/-- Sorting a key set yields distinct entries. -/
theorem pySortedSet_nodup (l : List String) : (pySortedSet l).Nodup :=
  (List.perm_insertionSort _ _).nodup_iff.mpr l.nodup_dedup

/-- Sorting a key set yields a strictly increasing list in the
lexicographic string order. -/
theorem pySortedSet_sorted (l : List String) :
    (pySortedSet l).Sorted (fun a b => a < b) := by
  have hs : (pySortedSet l).Sorted (fun a b => a ≤ b) :=
    List.sorted_insertionSort _ _
  exact hs.lt_of_le (pySortedSet_nodup l)

/-- C2: in both plain and flatten key extraction, a dataset whose first
element is an object yields the first record's keys first, in their
original order, followed by exactly the keys that appear in some record
but not in the first, in strictly increasing lexicographic order; in
particular first-record keys a,b,c with a later record introducing d
yield exactly a,b,c,d. -/
theorem extract_keys_first_record_priority (fs : List (String × Json))
    (rest : List Json) :
    (∃ R, extract_all_keys (.obj fs :: rest) = fs.map Prod.fst ++ R ∧
      R.Sorted (fun a b => a < b) ∧
      ∀ k, k ∈ R ↔
        ((∃ item ∈ (Json.obj fs :: rest), ∃ ks,
            objKeys item = some ks ∧ k ∈ ks) ∧
          k ∉ fs.map Prod.fst)) ∧
    (∃ R, extract_all_keys_advanced (.obj fs :: rest) =
        pyKeys (flatten_nested_data (.obj fs) ("") (".")) ++ R ∧
      R.Sorted (fun a b => a < b) ∧
      ∀ k, k ∈ R ↔
        ((∃ item ∈ (Json.obj fs :: rest), ∃ ks,
            flatObjKeys item = some ks ∧ k ∈ ks) ∧
          k ∉ pyKeys (flatten_nested_data (.obj fs) ("") (".")))) ∧
    extract_all_keys
        [.obj [(("a"), .num 1), (("b"), .num 2), (("c"), .num 3)],
          .obj [(("d"), .num 4)]] = [("a"), ("b"), ("c"), ("d")] ∧
    extract_all_keys_advanced
        [.obj [(("a"), .num 1), (("b"), .num 2), (("c"), .num 3)],
          .obj [(("d"), .num 4)]] = [("a"), ("b"), ("c"), ("d")] := by
  refine ⟨⟨_, rfl, pySortedSet_sorted _, fun k => ?_⟩,
          ⟨_, rfl, pySortedSet_sorted _, fun k => ?_⟩, rfl, rfl⟩
  · rw [pySortedSet_mem]
    exact mem_filter_keys_iff (fs.map Prod.fst) objKeys (Json.obj fs :: rest) k
  · rw [pySortedSet_mem]
    exact mem_filter_keys_iff (pyKeys (flatten_nested_data (.obj fs) ("") ("."))) flatObjKeys (Json.obj fs :: rest) k

/-- Lookup in an appended dict: the left part wins when it has the key. -/
theorem alookup_append {α : Type} (A B : List (String × α)) (k : String) :
    alookup (A ++ B) k =
      match alookup A k with
      | some v => some v
      | none => alookup B k := by
  induction A with
  | nil => rfl
  | cons p rest ih =>
    obtain ⟨k0, v0⟩ := p
    by_cases h : k0 = k
    · simp [alookup, h]
    · simp [alookup, h, ih]

/-- Lookup misses when the key is absent. -/
theorem alookup_eq_none {α : Type} (l : List (String × α)) (k : String)
    (h : k ∉ l.map Prod.fst) : alookup l k = none := by
  induction l with
  | nil => rfl
  | cons p rest ih =>
    obtain ⟨k0, v0⟩ := p
    simp only [List.map_cons, List.mem_cons] at h
    push_neg at h
    have hne : ¬ k0 = k := fun he => h.1 he.symm
    simp [alookup, hne, ih h.2]

/-- Lookup of a transformed entry list at a member's key, when keys are
distinct. -/
theorem alookup_map_pair {α γ : Type} (l : List (String × γ))
    (g : String × γ → α) (p : String × γ) (hp : p ∈ l)
    (hnd : (l.map Prod.fst).Nodup) :
    alookup (l.map (fun q => (q.1, g q))) p.1 = some (g p) := by
  induction l with
  | nil => cases hp
  | cons q rest ih =>
    obtain ⟨hq, hrest⟩ := List.nodup_cons.mp hnd
    rcases List.mem_cons.mp hp with rfl | hmem
    · simp [alookup]
    · have hk : q.1 ≠ p.1 := by
        intro he
        exact hq (he ▸ List.mem_map_of_mem Prod.fst hmem)
      simp [alookup, hk, ih hmem hrest]

/-- Python dict assignment with a fresh key appends the pair. -/
theorem dictUpd_fresh {α : Type} (l : List (String × α)) (k : String) (v : α)
    (h : k ∉ l.map Prod.fst) : dictUpd l k v = l ++ [(k, v)] := by
  induction l with
  | nil => rfl
  | cons p rest ih =>
    obtain ⟨k0, v0⟩ := p
    simp only [List.map_cons, List.mem_cons] at h
    push_neg at h
    have hne : ¬ k0 = k := fun he => h.1 he.symm
    simp [dictUpd, hne, ih h.2]

/-- Folding dict assignments of pairwise-fresh keys appends the mapped
pairs in order. -/
theorem foldl_dictUpd {α γ : Type} (ps : List (String × γ))
    (g : String × γ → α) (r : List (String × α))
    (hnd : (ps.map Prod.fst).Nodup)
    (hfresh : ∀ q ∈ ps, q.1 ∉ r.map Prod.fst) :
    ps.foldl (fun acc q => dictUpd acc q.1 (g q)) r =
      r ++ ps.map (fun q => (q.1, g q)) := by
  induction ps generalizing r with
  | nil => simp
  | cons q rest ih =>
    obtain ⟨hq, hrest⟩ := List.nodup_cons.mp hnd
    have hfresh2 : ∀ q2 ∈ rest, q2.1 ∉ (r ++ [(q.1, g q)]).map Prod.fst := by
      intro q2 hq2
      simp only [List.map_append, List.mem_append, List.map_cons,
        List.map_nil, List.mem_singleton]
      push_neg
      refine ⟨hfresh q2 (by simp [hq2]), fun he => ?_⟩
      exact hq (he ▸ List.mem_map_of_mem Prod.fst hq2)
    rw [List.foldl_cons, dictUpd_fresh r q.1 (g q) (hfresh q (by simp)),
      ih (r ++ [(q.1, g q)]) hrest hfresh2]
    simp

/-- When the derived column names are pairwise distinct, one transposed
row is literally the singles block followed by the array block. -/
theorem buildRow_eq (st : ExtractSt) (i : Nat)
    (hnd : (st.singles.map Prod.fst ++ groupFieldNames st.array_groups).Nodup) :
    buildRow st i =
      st.singles.map (fun p => (p.1, if i = 0 then p.2 else Json.str (""))) ++
      (groupPairs st.array_groups).map
        (fun q => (q.1, q.2.getD i (.str ("")))) := by
  obtain ⟨hnd1, hnd2, hdisj⟩ := List.nodup_append.mp hnd
  have hsingles :
      st.singles.foldl
        (fun row p => dictUpd row p.1 (if i = 0 then p.2 else .str (""))) [] =
      st.singles.map (fun p => (p.1, if i = 0 then p.2 else Json.str (""))) := by
    rw [foldl_dictUpd st.singles
      (fun p => if i = 0 then p.2 else Json.str ("")) [] hnd1 (by simp)]
    rfl
  have harr : ∀ X : List (String × Json),
      st.array_groups.foldl
        (fun row g => g.2.foldl
          (fun row2 a =>
            dictUpd row2 (arrayFieldName g.1 a.1) (a.2.getD i (.str ("")))) row)
        X =
      (groupPairs st.array_groups).foldl
        (fun acc q => dictUpd acc q.1 (q.2.getD i (.str ("")))) X := by
    intro X
    simp only [groupPairs, List.foldl_flatten, List.foldl_map]
  show st.array_groups.foldl _
      (st.singles.foldl
        (fun row p => dictUpd row p.1 (if i = 0 then p.2 else .str (""))) []) = _
  rw [hsingles, harr]
  rw [foldl_dictUpd (groupPairs st.array_groups)
    (fun q => q.2.getD i (.str (""))) _ hnd2 ?freshArr]
  case freshArr =>
    intro q hq
    intro hmem
    have h1 : q.1 ∈ groupFieldNames st.array_groups :=
      List.mem_map_of_mem Prod.fst hq
    have h2 : q.1 ∈ st.singles.map Prod.fst := by
      simpa [List.map_map, Function.comp] using hmem
    exact hdisj h2 h1

/-- Counterexample to C1 as stated, in two parts.  First, a record whose
only array-valued field is empty: the maximum array length is 0, yet the
transposer emits one row (the record itself), not zero rows.  Second, a
record where a single value's dotted path coincides with an array's
column name (key `a.b` next to object `a` holding array `b`): the single
value 5 does not appear in row 0 — the array element overwrites it. -/
theorem transpose_rows_counterexample :
    (transposeItem (.obj [(("a"), .arr [])]) =
        .ok [.obj [(("a"), .arr [])]] ∧
      groupsMaxLen
        (extract_arrays [(("a"), .arr [])] ("") ⟨[], []⟩).array_groups = 0) ∧
    (transposeItem (.obj [(("a.b"), .num 5),
        (("a"), .obj [(("b"), .arr [.num 1, .num 2])])]) =
      .ok [.obj [(("a.b"), .num 1)], .obj [(("a.b"), .num 2)]] ∧
      (extract_arrays [(("a.b"), .num 5),
        (("a"), .obj [(("b"), .arr [.num 1, .num 2])])] ("") ⟨[], []⟩).singles =
        [(("a.b"), .num 5)] ∧
      ¬ alookup [(("a.b"), Json.num 1)] ("a.b") = some (Json.num 5)) := by
  refine ⟨⟨rfl, rfl⟩, rfl, rfl, fun h => ?_⟩
  rw [show alookup [(("a.b"), Json.num 1)] ("a.b") =
    some (Json.num 1) from rfl] at h
  simp at h

/-- C1 amended: for a record with at least one array-valued field of
positive length (maxLen > 0) and pairwise-distinct derived column names
(no single-value dotted path equals an array column name and distinct
array fields have distinct column names — collisions are possible when
keys contain dots), the transposer emits exactly maxLen rows; in row i
every single-value field holds its value when i = 0 and the empty string
otherwise, and every array field holds its element at index i, or the
empty string when the array is shorter. -/
theorem transpose_rows_shape (fs : List (String × Json)) (st : ExtractSt)
    (hst : st = extract_arrays fs ("") ⟨[], []⟩)
    (hpos : 0 < groupsMaxLen st.array_groups)
    (hnd : (st.singles.map Prod.fst ++
      groupFieldNames st.array_groups).Nodup) :
    transposeItem (.obj fs) =
      .ok ((List.range (groupsMaxLen st.array_groups)).map
        (fun i => .obj (buildRow st i))) ∧
    ((List.range (groupsMaxLen st.array_groups)).map
      (fun i => Json.obj (buildRow st i))).length =
        groupsMaxLen st.array_groups ∧
    ∀ i, i < groupsMaxLen st.array_groups →
      (∀ p ∈ st.singles, alookup (buildRow st i) p.1 =
        some (if i = 0 then p.2 else .str (""))) ∧
      (∀ q ∈ groupPairs st.array_groups, alookup (buildRow st i) q.1 =
        some (q.2.getD i (.str ("")))) := by
  obtain ⟨hnd1, hnd2, hdisj⟩ := List.nodup_append.mp hnd
  refine ⟨?_, by simp, fun i hi => ⟨fun p hp => ?_, fun q hq => ?_⟩⟩
  · subst hst
    simp [transposeItem, Nat.pos_iff_ne_zero.mp hpos]
  · rw [buildRow_eq st i hnd, alookup_append,
      alookup_map_pair st.singles _ p hp hnd1]
  · rw [buildRow_eq st i hnd, alookup_append]
    have hnone :
        alookup (st.singles.map
          (fun p => (p.1, if i = 0 then p.2 else Json.str ("")))) q.1 = none := by
      apply alookup_eq_none
      intro hmem
      have h1 : q.1 ∈ groupFieldNames st.array_groups :=
        List.mem_map_of_mem Prod.fst hq
      have h2 : q.1 ∈ st.singles.map Prod.fst := by
        simpa [List.map_map, Function.comp] using hmem
      exact hdisj h2 h1
    rw [hnone, alookup_map_pair (groupPairs st.array_groups) _ q hq hnd2]

/-- Witness for C1 amended at the record with a single value `id` and a
two-element array `scores`: both hypotheses hold and the transposer
emits the two rows described by the theorem. -/
theorem transpose_rows_shape_witness :
    transposeItem
      (.obj [(("id"), .num 1), (("scores"), .arr [.num 10, .num 20])]) =
      .ok ((List.range (groupsMaxLen
          (extract_arrays
            [(("id"), .num 1), (("scores"), .arr [.num 10, .num 20])]
            ("") ⟨[], []⟩).array_groups)).map
        (fun i => .obj (buildRow
          (extract_arrays
            [(("id"), .num 1), (("scores"), .arr [.num 10, .num 20])]
            ("") ⟨[], []⟩) i))) :=
  (transpose_rows_shape
    [(("id"), .num 1), (("scores"), .arr [.num 10, .num 20])]
    (extract_arrays [(("id"), .num 1), (("scores"), .arr [.num 10, .num 20])]
      ("") ⟨[], []⟩)
    rfl (by decide) (by decide)).1

/-- Decimal digit characters stay within the digit range. -/
theorem digitChar_range (m : Nat) (h : m < 10) :
    '0' ≤ Nat.digitChar m ∧ Nat.digitChar m ≤ '9' := by
  interval_cases m <;> exact (by decide)

/-- Decimal digit characters are injective below the base. -/
theorem digitChar_inj (m n : Nat) (hm : m < 10) (hn : n < 10)
    (h : Nat.digitChar m = Nat.digitChar n) : m = n := by
  interval_cases m <;> interval_cases n <;> revert h <;> decide

/-- The digit accumulator appends its accumulator on the right. -/
theorem natDigitsAux_acc (fuel : Nat) :
    ∀ (n : Nat) (acc : List Char),
      natDigitsAux fuel n acc = natDigitsAux fuel n [] ++ acc := by
  induction fuel with
  | zero => intro n acc; rfl
  | succ f ih =>
    intro n acc
    by_cases h : n < 10
    · simp [natDigitsAux, h]
    · rw [show natDigitsAux (f + 1) n acc =
          natDigitsAux f (n / 10) (Nat.digitChar (n % 10) :: acc) from by
            simp [natDigitsAux, h],
        show natDigitsAux (f + 1) n [] =
          natDigitsAux f (n / 10) [Nat.digitChar (n % 10)] from by
            simp [natDigitsAux, h],
        ih (n / 10) (Nat.digitChar (n % 10) :: acc),
        ih (n / 10) [Nat.digitChar (n % 10)]]
      simp

/-- With positive fuel the digit list is never empty. -/
theorem natDigitsAux_ne_nil (fuel n : Nat) (h : 0 < fuel) :
    natDigitsAux fuel n [] ≠ [] := by
  cases fuel with
  | zero => omega
  | succ f =>
    by_cases h10 : n < 10
    · simp [natDigitsAux, h10]
    · rw [show natDigitsAux (f + 1) n [] =
          natDigitsAux f (n / 10) [Nat.digitChar (n % 10)] from by
            simp [natDigitsAux, h10],
        natDigitsAux_acc f (n / 10) [Nat.digitChar (n % 10)]]
      simp

/-- Every character the digit accumulator produces from a clean
accumulator is a decimal digit. -/
theorem natDigitsAux_digits (fuel : Nat) :
    ∀ (n : Nat) (acc : List Char),
      (∀ c ∈ acc, '0' ≤ c ∧ c ≤ '9') →
      ∀ c ∈ natDigitsAux fuel n acc, '0' ≤ c ∧ c ≤ '9' := by
  induction fuel with
  | zero => intro n acc hacc; exact hacc
  | succ f ih =>
    intro n acc hacc c hc
    have hdig : '0' ≤ Nat.digitChar (n % 10) ∧ Nat.digitChar (n % 10) ≤ '9' :=
      digitChar_range (n % 10) (Nat.mod_lt n (by omega))
    by_cases h10 : n < 10
    · rw [show natDigitsAux (f + 1) n acc =
        Nat.digitChar (n % 10) :: acc from by simp [natDigitsAux, h10]] at hc
      rcases List.mem_cons.mp hc with rfl | hmem
      · exact hdig
      · exact hacc c hmem
    · rw [show natDigitsAux (f + 1) n acc =
        natDigitsAux f (n / 10) (Nat.digitChar (n % 10) :: acc) from by
          simp [natDigitsAux, h10]] at hc
      refine ih (n / 10) _ ?_ c hc
      intro c2 hc2
      rcases List.mem_cons.mp hc2 with rfl | hmem
      · exact hdig
      · exact hacc c2 hmem

/-- Digit lists of distinct numbers differ (with sufficient fuel). -/
theorem natDigitsAux_inj (fuel1 : Nat) :
    ∀ (fuel2 m n : Nat), m < fuel1 → n < fuel2 →
      natDigitsAux fuel1 m [] = natDigitsAux fuel2 n [] → m = n := by
  induction fuel1 with
  | zero => intro fuel2 m n hm; omega
  | succ f1 ih =>
    intro fuel2 m n hm hn h
    cases fuel2 with
    | zero => omega
    | succ f2 =>
      by_cases hm10 : m < 10 <;> by_cases hn10 : n < 10
      · rw [show natDigitsAux (f1 + 1) m [] = [Nat.digitChar (m % 10)] from by
            simp [natDigitsAux, hm10],
          show natDigitsAux (f2 + 1) n [] = [Nat.digitChar (n % 10)] from by
            simp [natDigitsAux, hn10]] at h
        have := digitChar_inj (m % 10) (n % 10)
          (Nat.mod_lt m (by omega)) (Nat.mod_lt n (by omega))
          (List.singleton_inj.mp h)
        omega
      · rw [show natDigitsAux (f1 + 1) m [] = [Nat.digitChar (m % 10)] from by
            simp [natDigitsAux, hm10],
          show natDigitsAux (f2 + 1) n [] =
            natDigitsAux f2 (n / 10) [Nat.digitChar (n % 10)] from by
              simp [natDigitsAux, hn10],
          natDigitsAux_acc f2 (n / 10) [Nat.digitChar (n % 10)]] at h
        have hne : natDigitsAux f2 (n / 10) [] ≠ [] :=
          natDigitsAux_ne_nil f2 (n / 10) (by omega)
        have hlen := congrArg List.length h
        simp at hlen
        exact absurd hlen hne
      · rw [show natDigitsAux (f2 + 1) n [] = [Nat.digitChar (n % 10)] from by
            simp [natDigitsAux, hn10],
          show natDigitsAux (f1 + 1) m [] =
            natDigitsAux f1 (m / 10) [Nat.digitChar (m % 10)] from by
              simp [natDigitsAux, hm10],
          natDigitsAux_acc f1 (m / 10) [Nat.digitChar (m % 10)]] at h
        have hne : natDigitsAux f1 (m / 10) [] ≠ [] :=
          natDigitsAux_ne_nil f1 (m / 10) (by omega)
        have hlen := congrArg List.length h
        simp at hlen
        exact absurd hlen hne
      · rw [show natDigitsAux (f1 + 1) m [] =
            natDigitsAux f1 (m / 10) [Nat.digitChar (m % 10)] from by
              simp [natDigitsAux, hm10],
          show natDigitsAux (f2 + 1) n [] =
            natDigitsAux f2 (n / 10) [Nat.digitChar (n % 10)] from by
              simp [natDigitsAux, hn10],
          natDigitsAux_acc f1 (m / 10) [Nat.digitChar (m % 10)],
          natDigitsAux_acc f2 (n / 10) [Nat.digitChar (n % 10)]] at h
        obtain ⟨hpre, hlast⟩ := List.append_inj' h (by simp)
        have hmod := digitChar_inj (m % 10) (n % 10)
          (Nat.mod_lt m (by omega)) (Nat.mod_lt n (by omega))
          (List.singleton_inj.mp hlast)
        have hdivm : m / 10 < f1 := by
          have := Nat.div_lt_self (show 0 < m by omega) (show 1 < 10 by omega)
          omega
        have hdivn : n / 10 < f2 := by
          have := Nat.div_lt_self (show 0 < n by omega) (show 1 < 10 by omega)
          omega
        have hdiv := ih f2 (m / 10) (n / 10) hdivm hdivn hpre
        omega

/-- Python decimal rendering of naturals is injective. -/
theorem natStr_inj (m n : Nat) (h : natStr m = natStr n) : m = n := by
  have hdata : natDigitsAux (m + 1) m [] = natDigitsAux (n + 1) n [] := by
    have := congrArg String.data h
    simpa [natStr] using this
  exact natDigitsAux_inj (m + 1) (n + 1) m n (by omega) (by omega) hdata

/-- Every character of a rendered natural is a decimal digit. -/
theorem natStr_digits (n : Nat) :
    ∀ c ∈ (natStr n).data, '0' ≤ c ∧ c ≤ '9' := by
  intro c hc
  exact natDigitsAux_digits (n + 1) n [] (by simp) c (by simpa [natStr] using hc)

/-- Words over characters avoiding a delimiter set, extended by suffixes
that are empty or start with a delimiter, concatenate injectively. -/
theorem append_neq_of_delim (D : Char → Prop) (a1 a2 s1 s2 : List Char)
    (ha1 : ∀ c ∈ a1, ¬ D c) (ha2 : ∀ c ∈ a2, ¬ D c)
    (hne : a1 ≠ a2)
    (hs1 : s1 = [] ∨ ∃ c t, s1 = c :: t ∧ D c)
    (hs2 : s2 = [] ∨ ∃ c t, s2 = c :: t ∧ D c) :
    a1 ++ s1 ≠ a2 ++ s2 := by
  intro h
  rcases List.append_eq_append_iff.mp h with ⟨u, hu1, hu2⟩ | ⟨u, hu1, hu2⟩
  · cases u with
    | nil => simp at hu1; exact hne hu1.symm
    | cons c t =>
      have hc : c ∈ a2 := by
        rw [hu1]; exact List.mem_append_right a1 (by simp)
      rcases hs1 with h1 | ⟨c2, t2, heq, hD⟩
      · rw [h1] at hu2; simp at hu2
      · rw [heq] at hu2
        have hcc : c2 = c := by
          simpa using congrArg List.head? hu2
        exact ha2 c hc (hcc ▸ hD)
  · cases u with
    | nil => simp at hu1; exact hne hu1
    | cons c t =>
      have hc : c ∈ a1 := by
        rw [hu1]; exact List.mem_append_right a2 (by simp)
      rcases hs2 with h2 | ⟨c2, t2, heq, hD⟩
      · rw [h2] at hu2; simp at hu2
      · rw [heq] at hu2
        have hcc : c2 = c := by
          simpa using congrArg List.head? hu2
        exact ha1 c hc (hcc ▸ hD)

/-- A safe key contains neither a dot nor an opening bracket. -/
theorem keyOk_chars (k : String) (h : keyOk k = true) :
    ∀ c ∈ k.data, ¬ (c = '.' ∨ c = '[') := by
  rw [show keyOk k = (!(k.data.contains '.') && !(k.data.contains '[') &&
      !(k.data.isEmpty)) from rfl, Bool.and_eq_true, Bool.and_eq_true,
    Bool.not_eq_true', Bool.not_eq_true', Bool.not_eq_true'] at h
  intro c hc hor
  have hcont : k.data.contains c = true := List.elem_eq_true_of_mem hc
  rcases hor with rfl | rfl
  · rw [h.1.1] at hcont
    exact Bool.false_ne_true hcont
  · rw [h.1.2] at hcont
    exact Bool.false_ne_true hcont

/-- A safe key is nonempty. -/
theorem keyOk_ne_empty (k : String) (h : keyOk k = true) : k ≠ ("") := by
  simp only [keyOk, Bool.and_eq_true, Bool.not_eq_true'] at h
  intro he
  rw [he] at h
  simp at h

/-- An `extSuffix` is empty or starts with a dot or bracket. -/
theorem extSuffix_delim (s : List Char) (h : extSuffix s) :
    s = [] ∨ ∃ c t, s = c :: t ∧ (c = '.' ∨ c = '[') := by
  rcases h with h | h | h
  · exact Or.inl h
  · cases s with
    | nil => simp at h
    | cons c t =>
      simp only [List.head?_cons, Option.some.injEq] at h
      exact Or.inr ⟨c, t, rfl, Or.inl h⟩
  · cases s with
    | nil => simp at h
    | cons c t =>
      simp only [List.head?_cons, Option.some.injEq] at h
      exact Or.inr ⟨c, t, rfl, Or.inr h⟩

/-- Sibling object fields with distinct safe keys produce distinct flat
keys, whatever valid suffixes follow. -/
theorem key_append_neq (k1 k2 : String) (s1 s2 : List Char)
    (h1 : keyOk k1 = true) (h2 : keyOk k2 = true) (hne : k1 ≠ k2)
    (hs1 : extSuffix s1) (hs2 : extSuffix s2) :
    k1.data ++ s1 ≠ k2.data ++ s2 := by
  refine append_neq_of_delim (fun c => c = '.' ∨ c = '[') k1.data k2.data s1 s2
    (keyOk_chars k1 h1) (keyOk_chars k2 h2) ?_ (extSuffix_delim s1 hs1)
    (extSuffix_delim s2 hs2)
  intro hd
  exact hne (String.ext hd)

/-- Sibling array elements at distinct indices produce distinct flat
keys, whatever valid suffixes follow. -/
theorem idx_append_neq (i j : Nat) (s1 s2 : List Char) (hne : i ≠ j) :
    (natStr i).data ++ ']' :: s1 ≠ (natStr j).data ++ ']' :: s2 := by
  refine append_neq_of_delim (fun c => c = ']') (natStr i).data (natStr j).data
    (']' :: s1) (']' :: s2) ?_ ?_ ?_
    (Or.inr ⟨']', s1, rfl, rfl⟩) (Or.inr ⟨']', s2, rfl, rfl⟩)
  · intro c hc
    have hd := natStr_digits i c hc
    rintro rfl
    exact absurd hd (by decide)
  · intro c hc
    have hd := natStr_digits j c hc
    rintro rfl
    exact absurd hd (by decide)
  · intro hd
    exact hne (natStr_inj i j (String.ext hd))

/-- Every key an object's field list carries is a safe key. -/
theorem safeFields_keyOk (fs : List (String × Json))
    (h : safeKeys.safeFields fs = true) :
    ∀ k ∈ fs.map Prod.fst, keyOk k = true := by
  induction fs with
  | nil => simp
  | cons p rest ih =>
    obtain ⟨k0, v0⟩ := p
    rw [show safeKeys.safeFields ((k0, v0) :: rest) =
      ((keyOk k0 && safeKeys v0) && safeKeys.safeFields rest) from rfl] at h
    simp only [Bool.and_eq_true] at h
    intro k hk
    simp only [List.map_cons, List.mem_cons] at hk
    rcases hk with rfl | hmem
    · exact h.1.1
    · exact ih h.2 k hmem

/-- A key extending the bracketed index path, restated with the bracket
characters exposed. -/
theorem head_shape_adjust (i : Nat) (p : String) (key : String)
    (s : List Char)
    (hd : key.data = (p ++ ("[") ++ natStr i ++ ("]")).data ++ s) :
    key.data = p.data ++ '[' :: ((natStr i).data ++ ']' :: s) := by
  rw [hd]
  show (((p.data ++ ['[']) ++ (natStr i).data) ++ [']']) ++ s = _
  simp [List.append_assoc]

/-- Combining the flat keys of the element at index i with those of the
later elements: distinctness and the index-suffix description carry
over. -/
theorem flatElems_combine (headList restList : List (String × Json))
    (i : Nat) (p : String)
    (hndh : (headList.map Prod.fst).Nodup)
    (hmemh : ∀ key ∈ headList.map Prod.fst, ∃ s,
      key.data = p.data ++ '[' :: ((natStr i).data ++ ']' :: s) ∧ extSuffix s)
    (hndr : (restList.map Prod.fst).Nodup)
    (hmemr : ∀ key ∈ restList.map Prod.fst, ∃ j s, i + 1 ≤ j ∧
      key.data = p.data ++ '[' :: ((natStr j).data ++ ']' :: s) ∧ extSuffix s) :
    (((headList ++ restList).map Prod.fst).Nodup) ∧
    ∀ key ∈ (headList ++ restList).map Prod.fst, ∃ j s, i ≤ j ∧
      key.data = p.data ++ '[' :: ((natStr j).data ++ ']' :: s) ∧
      extSuffix s := by
  rw [List.map_append]
  constructor
  · rw [List.nodup_append]
    refine ⟨hndh, hndr, ?_⟩
    intro key hkL hkR
    obtain ⟨s1, hd1, he1⟩ := hmemh key hkL
    obtain ⟨j, s2, hj, hd2, he2⟩ := hmemr key hkR
    have heq : p.data ++ '[' :: ((natStr i).data ++ ']' :: s1) =
        p.data ++ '[' :: ((natStr j).data ++ ']' :: s2) := hd1.symm.trans hd2
    have hcancel : (natStr i).data ++ ']' :: s1 =
        (natStr j).data ++ ']' :: s2 := by
      have h2 := (List.append_right_inj p.data).mp heq
      simpa using h2
    exact idx_append_neq i j s1 s2 (by omega) hcancel
  · intro key hkey
    rcases List.mem_append.mp hkey with hkL | hkR
    · obtain ⟨s1, hd1, he1⟩ := hmemh key hkL
      exact ⟨i, s1, le_refl i, hd1, he1⟩
    · obtain ⟨j, s2, hj, hd2, he2⟩ := hmemr key hkR
      exact ⟨j, s2, by omega, hd2, he2⟩

mutual

/-- Keys of a flattened safe value under a nonempty parent are pairwise
distinct, and each extends the parent's path by a valid suffix. -/
theorem flatten_keys_spec (v : Json) (p : String) (hp : p ≠ (""))
    (hs : safeKeys v = true) :
    ((flatten_nested_data v p (".")).map Prod.fst).Nodup ∧
    ∀ key ∈ (flatten_nested_data v p (".")).map Prod.fst,
      ∃ s, key.data = p.data ++ s ∧ extSuffix s := by
  match v with
  | .obj fs =>
    rw [show safeKeys (.obj fs) =
      (distinctKeys (fs.map Prod.fst) && safeKeys.safeFields fs) from rfl,
      Bool.and_eq_true] at hs
    obtain ⟨hnd, hmem⟩ := flatFields_keys_spec fs p hs.2 hs.1
    refine ⟨hnd, fun key hkey => ?_⟩
    obtain ⟨kf, s, hkf, hdata, hext⟩ := hmem key hkey
    refine ⟨'.' :: (kf.data ++ s), ?_, Or.inr (Or.inl rfl)⟩
    rw [hdata, dotPrefix, if_neg hp]
    simp
  | .arr es =>
    obtain ⟨hnd, hmem⟩ := flatElems_keys_spec es 0 p hs
    refine ⟨hnd, fun key hkey => ?_⟩
    obtain ⟨j, s, hj, hdata, hext⟩ := hmem key hkey
    exact ⟨'[' :: ((natStr j).data ++ ']' :: s), hdata, Or.inr (Or.inr rfl)⟩
  | .null =>
    refine ⟨by simp [flatten_nested_data], fun key hkey => ?_⟩
    have hkp : key = p := by simpa [flatten_nested_data] using hkey
    exact ⟨[], by rw [hkp]; simp, Or.inl rfl⟩
  | .bool b =>
    refine ⟨by simp [flatten_nested_data], fun key hkey => ?_⟩
    have hkp : key = p := by simpa [flatten_nested_data] using hkey
    exact ⟨[], by rw [hkp]; simp, Or.inl rfl⟩
  | .num n =>
    refine ⟨by simp [flatten_nested_data], fun key hkey => ?_⟩
    have hkp : key = p := by simpa [flatten_nested_data] using hkey
    exact ⟨[], by rw [hkp]; simp, Or.inl rfl⟩
  | .str s0 =>
    refine ⟨by simp [flatten_nested_data], fun key hkey => ?_⟩
    have hkp : key = p := by simpa [flatten_nested_data] using hkey
    exact ⟨[], by rw [hkp]; simp, Or.inl rfl⟩

termination_by sizeOf v

/-- Keys of a flattened safe field list: pairwise distinct, each of the
form (parent prefix) ++ field key ++ valid suffix. -/
theorem flatFields_keys_spec (fs : List (String × Json)) (p : String)
    (hsf : safeKeys.safeFields fs = true)
    (hdk : distinctKeys (fs.map Prod.fst) = true) :
    ((flatten_nested_data.flatFields fs p (".")).map Prod.fst).Nodup ∧
    ∀ key ∈ (flatten_nested_data.flatFields fs p (".")).map Prod.fst,
      ∃ kf s, kf ∈ fs.map Prod.fst ∧
        key.data = (dotPrefix p ++ kf.data) ++ s ∧ extSuffix s := by
  match fs with
  | [] =>
    exact ⟨by simp [flatten_nested_data.flatFields],
      by simp [flatten_nested_data.flatFields]⟩
  | (k0, v0) :: rest =>
    rw [show safeKeys.safeFields ((k0, v0) :: rest) =
      ((keyOk k0 && safeKeys v0) && safeKeys.safeFields rest) from rfl,
      Bool.and_eq_true, Bool.and_eq_true] at hsf
    obtain ⟨⟨hk0, hv0⟩, hrest⟩ := hsf
    rw [show distinctKeys (((k0, v0) :: rest).map Prod.fst) =
      (!(rest.map Prod.fst).contains k0 &&
        distinctKeys (rest.map Prod.fst)) from rfl,
      Bool.and_eq_true, Bool.not_eq_true'] at hdk
    obtain ⟨hk0nin, hdkrest⟩ := hdk
    have hpne : (if p = ("") then k0 else p ++ (".") ++ k0) ≠ ("") := by
      by_cases hpe : p = ("")
      · simpa [hpe] using keyOk_ne_empty k0 hk0
      · rw [if_neg hpe]
        intro hcontr
        have hd := congrArg String.data hcontr
        simp at hd
    have hpdata : (if p = ("") then k0 else p ++ (".") ++ k0).data =
        dotPrefix p ++ k0.data := by
      by_cases hpe : p = ("")
      · simp [hpe, dotPrefix]
      · rw [if_neg hpe, dotPrefix, if_neg hpe]
        rfl
    obtain ⟨hnd1, hmem1⟩ := flatten_keys_spec v0
      (if p = ("") then k0 else p ++ (".") ++ k0) hpne hv0
    obtain ⟨hnd2, hmem2⟩ := flatFields_keys_spec rest p hrest hdkrest
    rw [show flatten_nested_data.flatFields ((k0, v0) :: rest) p (".") =
      flatten_nested_data v0 (if p = ("") then k0 else p ++ (".") ++ k0) (".") ++
        flatten_nested_data.flatFields rest p (".") from rfl, List.map_append]
    constructor
    · rw [List.nodup_append]
      refine ⟨hnd1, hnd2, ?_⟩
      intro key hkL hkR
      obtain ⟨s1, hd1, he1⟩ := hmem1 key hkL
      obtain ⟨kf, s2, hkf, hd2, he2⟩ := hmem2 key hkR
      rw [hpdata] at hd1
      have heq : (dotPrefix p ++ k0.data) ++ s1 =
          (dotPrefix p ++ kf.data) ++ s2 := hd1.symm.trans hd2
      rw [List.append_assoc, List.append_assoc] at heq
      have hcancel : k0.data ++ s1 = kf.data ++ s2 :=
        (List.append_right_inj (dotPrefix p)).mp heq
      have hknef : k0 ≠ kf := by
        intro he
        have : (rest.map Prod.fst).contains k0 = true :=
          List.elem_eq_true_of_mem (he ▸ hkf)
        rw [hk0nin] at this
        exact Bool.false_ne_true this
      exact key_append_neq k0 kf s1 s2 hk0
        (safeFields_keyOk rest hrest kf hkf) hknef he1 he2 hcancel
    · intro key hkey
      rcases List.mem_append.mp hkey with hkL | hkR
      · obtain ⟨s1, hd1, he1⟩ := hmem1 key hkL
        rw [hpdata] at hd1
        exact ⟨k0, s1, by simp, hd1, he1⟩
      · obtain ⟨kf, s2, hkf, hd2, he2⟩ := hmem2 key hkR
        exact ⟨kf, s2, by simp [hkf], hd2, he2⟩

termination_by sizeOf fs

/-- Keys of a flattened safe element list starting at index i: pairwise
distinct, each of the form parent ++ bracketed index ++ valid suffix
with index at least i. -/
theorem flatElems_keys_spec (es : List Json) (i : Nat) (p : String)
    (hse : safeKeys.safeElems es = true) :
    ((flatten_nested_data.flatElems es i p (".")).map Prod.fst).Nodup ∧
    ∀ key ∈ (flatten_nested_data.flatElems es i p (".")).map Prod.fst,
      ∃ j s, i ≤ j ∧
        key.data = p.data ++ '[' :: ((natStr j).data ++ ']' :: s) ∧
        extSuffix s := by
  match es with
  | [] =>
    exact ⟨by simp [flatten_nested_data.flatElems],
      by simp [flatten_nested_data.flatElems]⟩
  | value :: rest =>
    rw [show safeKeys.safeElems (value :: rest) =
      (safeKeys value && safeKeys.safeElems rest) from rfl,
      Bool.and_eq_true] at hse
    obtain ⟨hv, hrest⟩ := hse
    have hnk : (p ++ ("[") ++ natStr i ++ ("]")) ≠ ("") := by
      intro hcontr
      have hd := congrArg String.data hcontr
      simp at hd
    have hnkdata : (p ++ ("[") ++ natStr i ++ ("]")).data =
        p.data ++ '[' :: ((natStr i).data ++ [']']) := by
      show ((p.data ++ ['[']) ++ (natStr i).data) ++ [']'] = _
      simp [List.append_assoc]
    obtain ⟨hndr, hmemr⟩ := flatElems_keys_spec rest (i + 1) p hrest
    cases value with
    | obj fs =>
      obtain ⟨hnd1, hmem1⟩ := flatten_keys_spec (.obj fs)
        (p ++ ("[") ++ natStr i ++ ("]")) hnk hv
      exact flatElems_combine
        (flatten_nested_data (.obj fs) (p ++ ("[") ++ natStr i ++ ("]")) ("."))
        (flatten_nested_data.flatElems rest (i + 1) p (".")) i p hnd1
        (fun key hkey => (hmem1 key hkey).elim fun s hs =>
          ⟨s, head_shape_adjust i p key s hs.1, hs.2⟩)
        hndr hmemr
    | arr es2 =>
      obtain ⟨hnd1, hmem1⟩ := flatten_keys_spec (.arr es2)
        (p ++ ("[") ++ natStr i ++ ("]")) hnk hv
      exact flatElems_combine
        (flatten_nested_data (.arr es2) (p ++ ("[") ++ natStr i ++ ("]")) ("."))
        (flatten_nested_data.flatElems rest (i + 1) p (".")) i p hnd1
        (fun key hkey => (hmem1 key hkey).elim fun s hs =>
          ⟨s, head_shape_adjust i p key s hs.1, hs.2⟩)
        hndr hmemr
    | null =>
      refine flatElems_combine [((p ++ ("[") ++ natStr i ++ ("]")), .null)]
        (flatten_nested_data.flatElems rest (i + 1) p (".")) i p
        (by simp) (fun key hkey => ?_) hndr hmemr
      have hkp : key = p ++ ("[") ++ natStr i ++ ("]") := by simpa using hkey
      exact ⟨[], by rw [hkp, hnkdata], Or.inl rfl⟩
    | bool b =>
      refine flatElems_combine [((p ++ ("[") ++ natStr i ++ ("]")), .bool b)]
        (flatten_nested_data.flatElems rest (i + 1) p (".")) i p
        (by simp) (fun key hkey => ?_) hndr hmemr
      have hkp : key = p ++ ("[") ++ natStr i ++ ("]") := by simpa using hkey
      exact ⟨[], by rw [hkp, hnkdata], Or.inl rfl⟩
    | num n =>
      refine flatElems_combine [((p ++ ("[") ++ natStr i ++ ("]")), .num n)]
        (flatten_nested_data.flatElems rest (i + 1) p (".")) i p
        (by simp) (fun key hkey => ?_) hndr hmemr
      have hkp : key = p ++ ("[") ++ natStr i ++ ("]") := by simpa using hkey
      exact ⟨[], by rw [hkp, hnkdata], Or.inl rfl⟩
    | str s0 =>
      refine flatElems_combine [((p ++ ("[") ++ natStr i ++ ("]")), .str s0)]
        (flatten_nested_data.flatElems rest (i + 1) p (".")) i p
        (by simp) (fun key hkey => ?_) hndr hmemr
      have hkp : key = p ++ ("[") ++ natStr i ++ ("]") := by simpa using hkey
      exact ⟨[], by rw [hkp, hnkdata], Or.inl rfl⟩
termination_by sizeOf es

end

/-- Counterexample to C5 as stated: three records in which two different
nesting paths map to the same flat key, through a dotted key (`a.b` next
to object `a` holding `b`), a bracketed key (`a[0]` next to array `a`),
and an empty key (`""` holding `a` next to key `a`).  Each flattened
association list carries the same key twice. -/
theorem flat_key_collision_counterexample :
    (flatten_nested_data (.obj [(("a"), .obj [(("b"), .num 1)]),
        (("a.b"), .num 2)]) ("") (".")).map Prod.fst = [("a.b"), ("a.b")] ∧
    (flatten_nested_data (.obj [(("a"), .arr [.num 1]),
        (("a[0]"), .num 2)]) ("") (".")).map Prod.fst = [("a[0]"), ("a[0]")] ∧
    (flatten_nested_data (.obj [((""), .obj [(("a"), .num 1)]),
        (("a"), .num 2)]) ("") (".")).map Prod.fst = [("a"), ("a")] ∧
    ¬ ([("a.b"), ("a.b")] : List String).Nodup :=
  ⟨rfl, rfl, rfl, by decide⟩

/-- C5 amended: for every record all of whose object keys (at every
nesting depth) are nonempty and contain neither `.` nor `[`, the
flattened association list has pairwise-distinct keys — two different
nesting paths never map to the same flat key.  Without that proviso the
encoding collides (see the counterexample). -/
theorem flatten_keys_nodup (v : Json) (h : safeKeys v = true) :
    ((flatten_nested_data v ("") (".")).map Prod.fst).Nodup := by
  cases v with
  | obj fs =>
    rw [show safeKeys (.obj fs) =
      (distinctKeys (fs.map Prod.fst) && safeKeys.safeFields fs) from rfl,
      Bool.and_eq_true] at h
    exact (flatFields_keys_spec fs ("") h.2 h.1).1
  | arr es => exact (flatElems_keys_spec es 0 ("") h).1
  | null => simp [flatten_nested_data]
  | bool b => simp [flatten_nested_data]
  | num n => simp [flatten_nested_data]
  | str s => simp [flatten_nested_data]

/-- Witness for C5 amended at a record with nested objects and an array
of mixed elements: its keys are safe and the flattened keys are
pairwise distinct. -/
theorem flatten_keys_nodup_witness :
    safeKeys (.obj [(("a"), .obj [(("b"), .num 1), (("c"), .num 2)]),
      (("d"), .arr [.num 3, .obj [(("e"), .num 4)]])]) = true ∧
    ((flatten_nested_data
      (.obj [(("a"), .obj [(("b"), .num 1), (("c"), .num 2)]),
        (("d"), .arr [.num 3, .obj [(("e"), .num 4)]])])
      ("") (".")).map Prod.fst).Nodup :=
  ⟨by decide, flatten_keys_nodup
    (.obj [(("a"), .obj [(("b"), .num 1), (("c"), .num 2)]),
      (("d"), .arr [.num 3, .obj [(("e"), .num 4)]])]) (by decide)⟩
